import Mathlib

/-!
# Fortran wrappers of the timing library (`src/utils/timing/f_wrappers.c`)

A shallow embedding of the seven wrappers of `f_wrappers.c` and of the
preprocessor block that chooses their exported spelling, followed by the
properties the specification states about them.

Conventions of the embedding

* a C `int` is an `Int`; the wrappers do no arithmetic on it apart from `MIN`
  and the conversion to `size_t` made by the call of `strncpy`;
* a `char` is a `Byte` (a natural number, `0` being NUL);
* the caller's character buffer is the list of the bytes it holds: reading
  `name[i]` with `i` outside the list is undefined behaviour and stops the run
  with `Fault.read i`;
* the local array `cname` is a list of `MAX_CHARS + 1` cells; a cell that has
  never been written is indeterminate (`none`); writing `cname[i]` with `i`
  outside the array stops the run with `Fault.write i`;
* the downstream timing library is external: its behaviour is an arbitrary
  function giving the status of a call from the calls made before it, and the
  state threaded through the wrappers records the calls made and the memory
  the wrappers touched themselves.
-/

namespace Timing

/-! ## Data model -/

/-- A C `char`, as its numeric value; `0` is the NUL character. -/
abbrev Byte := Nat

/-- An address handed over by the Fortran caller (arguments passed by reference). -/
abbrev Addr := Nat

/-- One cell of an automatic `char` array: `none` while it is indeterminate. -/
abbrev Cell := Option Byte

/-- Modelled from the spec: `gpt.h`, which declares the enumeration `OptionName`, is
not among the sources. The spec calls it "a closed enumerated set of named options"
reached from "an integer code"; a C enumeration object holds an integer, which is all
that is kept here. -/
structure OptionName where
  code : Int
deriving DecidableEq, Repr

/-- Modelled from the spec: `gpt.h`, which declares the enumeration `Boolean`, is not
among the sources. The spec calls it "a boolean-like flag" reached from "an associated
integer value"; a C enumeration object holds an integer, which is all that is kept
here. -/
structure Boolean where
  flag : Int
deriving DecidableEq, Repr

/-- Modelled from the spec: the member `true` of `Boolean` is what the flag value `1`
maps to ("flag = 1 → downstream receives (X, true)"). -/
def Boolean.true : Boolean := ⟨1⟩

/-- The cast `(OptionName) x` of an `int`: the value is kept. -/
def toOptionName (x : Int) : OptionName := ⟨x⟩

/-- The cast `(Boolean) x` of an `int`: the value is kept. -/
def toBoolean (x : Int) : Boolean := ⟨x⟩

/-- A call of a routine of the downstream timing library, with the arguments it
receives. `t_start` and `t_stop` receive a pointer to the array `cname` of the
wrapper: the call records the whole array as it stands at the call. -/
inductive Call where
  | t_initialize
  | t_pr (procid : Int)
  | t_reset
  | t_setoption (option : OptionName) (val : Boolean)
  | t_stamp (wall usr sys : Addr)
  | t_start (cname : List Cell)
  | t_stop (cname : List Cell)
deriving DecidableEq, Repr

/-- A memory access made by a wrapper itself. -/
inductive Access where
  | load (p : Addr)
  | readName (i : Nat)
  | writeCname (i : Int)
deriving DecidableEq, Repr

/-- An access outside the object it addresses (undefined behaviour in C). -/
inductive Fault where
  | read (i : Nat)
  | write (i : Int)
deriving DecidableEq, Repr

/-- What is observed of a run: the downstream calls made so far, oldest first, and
the memory accesses made so far by the wrappers themselves. -/
structure State where
  calls : List Call
  log : List Access
deriving DecidableEq, Repr

/-- A behaviour of the downstream library: the status a call returns, given the calls
made before it. -/
abbrev Downstream := List Call → Call → Int

/-- The integers stored at the addresses the caller passes. -/
abbrev Heap := Addr → Int

/-! ## Primitive steps -/

/-- Call a downstream routine: its status is returned and the call is recorded. -/
def invoke (lib : Downstream) (c : Call) (s : State) : Int × State :=
  (lib s.calls c, { s with calls := s.calls ++ [c] })

/-- The expression `*p` for an `int *p`. -/
def deref (heap : Heap) (p : Addr) (s : State) : Int × State :=
  (heap p, { s with log := s.log ++ [Access.load p] })

/-- The expression `name[i]`. -/
def readName (name : List Byte) (i : Nat) : Except Fault (Byte × List Access) :=
  match name.get? i with
  | some c => .ok (c, [Access.readName i])
  | none => .error (Fault.read i)

/-- The assignment `cname[i] = c`. -/
def writeCname (cname : List Cell) (i : Int) (c : Byte) :
    Except Fault (List Cell × List Access) :=
  if 0 ≤ i ∧ i < cname.length then
    .ok (cname.set i.toNat (some c), [Access.writeCname i])
  else
    .error (Fault.write i)

/-- Modelled from the spec: the macro `MIN` comes from a header that is not among the
sources; the spec reads it as "take the minimum of declared length and maximum". -/
def MIN (x y : Int) : Int := if x < y then x else y

/-- Width of `size_t`, from `ESMC_SIZEOF_VOIDP 4` in `ESMF_conf.h`. -/
def SIZE_BITS : Nat := 32

/-- Conversion of an `int` argument to the `size_t` parameter of `strncpy`: a
non-negative value is kept, a negative one wraps around. -/
def toSizeT (x : Int) : Nat :=
  if 0 ≤ x then x.toNat else (x % 2 ^ SIZE_BITS).toNat

/-- Second loop of `strncpy`: `for ( ; i < n; i++) dest[i] = 0;`, with `k = n - i`
iterations left. -/
def strncpyPad : Nat → Nat → List Cell → List Access →
    Except Fault (List Cell × List Access)
  | 0, _, dest, acc => .ok (dest, acc)
  | k + 1, i, dest, acc =>
    match writeCname dest i 0 with
    | .error e => .error e
    | .ok (dest1, a) => strncpyPad k (i + 1) dest1 (acc ++ a)

/-- First loop of `strncpy`: `for (i = 0; i < n && src[i] != 0; i++) dest[i] = src[i];`,
with `k = n - i` iterations left; it hands over to the second loop at the first NUL. -/
def strncpyCopy (src : List Byte) : Nat → Nat → List Cell → List Access →
    Except Fault (List Cell × List Access)
  | 0, _, dest, acc => .ok (dest, acc)
  | k + 1, i, dest, acc =>
    match readName src i with
    | .error e => .error e
    | .ok (c, a) =>
      if c = 0 then strncpyPad (k + 1) i dest (acc ++ a)
      else
        match writeCname dest i c with
        | .error e => .error e
        | .ok (dest1, a1) => strncpyCopy src k (i + 1) dest1 (acc ++ a ++ a1)

/-- The C library routine `strncpy (dest, src, n)`: at most `n` bytes of `src` are
copied, and if a NUL is met before `n` bytes the rest of the `n` bytes of `dest` is
filled with NUL. -/
def strncpy (dest : List Cell) (src : List Byte) (n : Nat) :
    Except Fault (List Cell × List Access) :=
  strncpyCopy src n 0 dest []

/-- The C string a callee finds at the start of a `char` array: the bytes before the
first NUL. There is none when an indeterminate cell or the end of the array comes
first. -/
def cstring : List Cell → Option (List Byte)
  | [] => none
  | none :: _ => none
  | some c :: rest =>
    if c = 0 then some [] else (cstring rest).map (fun t => c :: t)

/-! ## The wrappers -/

/-- The wrapper `int t_initializef ()`. -/
def t_initializef (lib : Downstream) (s : State) : Int × State :=
  invoke lib Call.t_initialize s

/-- The wrapper `int t_prf (int *procid)`. -/
def t_prf (lib : Downstream) (heap : Heap) (procid : Addr) (s : State) : Int × State :=
  let (v, s1) := deref heap procid s
  invoke lib (Call.t_pr v) s1

/-- The wrapper `void t_resetf ()`. -/
def t_resetf (lib : Downstream) (s : State) : State :=
  (invoke lib Call.t_reset s).2

/-- The wrapper `int t_setoptionf (int *option, int *val)`. -/
def t_setoptionf (lib : Downstream) (heap : Heap) (option val : Addr) (s : State) :
    Int × State :=
  let (o, s1) := deref heap option s
  let (v, s2) := deref heap val s1
  invoke lib (Call.t_setoption (toOptionName o) (toBoolean v)) s2

/-- The wrapper `int t_stampf (double *wall, double *usr, double *sys)`. -/
def t_stampf (lib : Downstream) (wall usr sys : Addr) (s : State) : Int × State :=
  invoke lib (Call.t_stamp wall usr sys) s

/-- The wrapper `int t_startf (char *name, int nc1)`. `MAX_CHARS` is a constant of a
header that is not among the sources and is a parameter here. -/
def t_startf (lib : Downstream) (MAX_CHARS : Nat) (name : List Byte) (nc1 : Int)
    (s : State) : Except Fault (Int × State) :=
  let cname : List Cell := List.replicate (MAX_CHARS + 1) none
  let numchars : Int := MIN nc1 MAX_CHARS
  match strncpy cname name (toSizeT numchars) with
  | .error e => .error e
  | .ok (cname1, a1) =>
    match writeCname cname1 numchars 0 with
    | .error e => .error e
    | .ok (cname2, a2) =>
      .ok (invoke lib (Call.t_start cname2) { s with log := s.log ++ a1 ++ a2 })

/-- The wrapper `int t_stopf (char *name, int nc1)`. `MAX_CHARS` is a constant of a
header that is not among the sources and is a parameter here. -/
def t_stopf (lib : Downstream) (MAX_CHARS : Nat) (name : List Byte) (nc1 : Int)
    (s : State) : Except Fault (Int × State) :=
  let cname : List Cell := List.replicate (MAX_CHARS + 1) none
  let numchars : Int := MIN nc1 MAX_CHARS
  match strncpy cname name (toSizeT numchars) with
  | .error e => .error e
  | .ok (cname1, a1) =>
    match writeCname cname1 numchars 0 with
    | .error e => .error e
    | .ok (cname2, a2) =>
      .ok (invoke lib (Call.t_stop cname2) { s with log := s.log ++ a1 ++ a2 })

/-! ## Exported names -/

/-- The seven routines that `f_wrappers.c` defines. -/
inductive Routine where
  | t_initializef
  | t_prf
  | t_resetf
  | t_stampf
  | t_startf
  | t_stopf
  | t_setoptionf
deriving DecidableEq, Repr

/-- The identifier under which the source text of `f_wrappers.c` writes a routine. -/
def Routine.ident : Routine → String
  | .t_initializef => "t_initializef"
  | .t_prf => "t_prf"
  | .t_resetf => "t_resetf"
  | .t_stampf => "t_stampf"
  | .t_startf => "t_startf"
  | .t_stopf => "t_stopf"
  | .t_setoptionf => "t_setoptionf"

/-- A build configuration: which of the three preprocessor flags are defined. -/
structure Build where
  FORTRANCAPS : Bool
  FORTRANUNDERSCORE : Bool
  FORTRANDOUBLEUNDERSCORE : Bool
deriving DecidableEq, Repr

/-- The name a routine is compiled under: the `#if` / `#elif` / `#elif` / `#endif`
block at the head of `f_wrappers.c`, one `#define` per routine in each branch. -/
def exported (b : Build) (r : Routine) : String :=
  if b.FORTRANCAPS then
    match r with
    | .t_initializef => "T_INITIALIZEF"
    | .t_prf => "T_PRF"
    | .t_resetf => "T_RESETF"
    | .t_stampf => "T_STAMPF"
    | .t_startf => "T_STARTF"
    | .t_stopf => "T_STOPF"
    | .t_setoptionf => "T_SETOPTIONF"
  else if b.FORTRANUNDERSCORE then
    match r with
    | .t_initializef => "t_initializef_"
    | .t_prf => "t_prf_"
    | .t_resetf => "t_resetf_"
    | .t_stampf => "t_stampf_"
    | .t_startf => "t_startf_"
    | .t_stopf => "t_stopf_"
    | .t_setoptionf => "t_setoptionf_"
  else if b.FORTRANDOUBLEUNDERSCORE then
    match r with
    | .t_initializef => "t_initializef__"
    | .t_prf => "t_prf__"
    | .t_resetf => "t_resetf__"
    | .t_stampf => "t_stampf__"
    | .t_startf => "t_startf__"
    | .t_stopf => "t_stopf__"
    | .t_setoptionf => "t_setoptionf__"
  else
    r.ident

/-- The spellings the specification names: the three decoration schemes, and the
identifier left as it is. -/
inductive Scheme where
  | uppercase
  | underscore
  | doubleUnderscore
  | undecorated
deriving DecidableEq, Repr

/-- An identifier with its letters in upper case. -/
def upper (x : String) : String := ⟨x.data.map Char.toUpper⟩

/-- The spelling of an identifier under a scheme. -/
def decorate : Scheme → String → String
  | .uppercase, x => upper x
  | .underscore, x => x ++ "_"
  | .doubleUnderscore, x => x ++ "__"
  | .undecorated, x => x

/-- The scheme of the flag that the `#if` / `#elif` chain selects: the first of the
three, in the order of the chain, that is defined. -/
def selected (b : Build) : Scheme :=
  if b.FORTRANCAPS then .uppercase
  else if b.FORTRANUNDERSCORE then .underscore
  else if b.FORTRANDOUBLEUNDERSCORE then .doubleUnderscore
  else .undecorated

/-! ## Vocabulary of the statements -/

/-- The bytes of a text given as a string literal (used for concrete inputs). -/
def bytes (x : String) : List Byte := x.toList.map Char.toNat

/-- The run `r` of a wrapper, started in state `s`, called the downstream library
exactly once, with the call `c`, and returned the status that call returned. -/
def CallsOnce (lib : Downstream) (s : State) (c : Call) (r : Int × State) : Prop :=
  r.2.calls = s.calls ++ [c] ∧ r.1 = lib s.calls c

/-! ## Closed forms used in the proofs -/

/-- What `strncpy` leaves in the cells it fills from the bytes `l` it may copy: the
bytes before the first NUL, then NUL up to the length of `l`. -/
def copied : List Byte → List Cell
  | [] => []
  | c :: t => if c = 0 then List.replicate (t.length + 1) (some 0) else some c :: copied t

/-- The accesses of the second loop of `strncpy` over `k` cells from index `i`. -/
def padLog (i k : Nat) : List Access :=
  (List.range' i k).map (fun j : Nat => Access.writeCname (j : Int))

/-- The accesses of `strncpy` while it copies the bytes `l` to the cells from index `i`. -/
def copyLog : Nat → List Byte → List Access
  | _, [] => []
  | i, c :: t =>
    if c = 0 then Access.readName i :: padLog i (t.length + 1)
    else Access.readName i :: Access.writeCname (i : Int) :: copyLog (i + 1) t

/-- The array `cname` at the downstream call, when the bytes `l` were there to copy. -/
def cnameAfter (MAX_CHARS : Nat) (l : List Byte) : List Cell :=
  copied l ++ some 0 :: List.replicate (MAX_CHARS - l.length) none

/-! ## Lemmas on the primitive steps -/

theorem set_at_length {α : Type} (pre : List α) (x y : α) (suf : List α) :
    (pre ++ x :: suf).set pre.length y = pre ++ y :: suf := by
  induction pre with
  | nil => rfl
  | cons a t ih => simp [ih]

theorem writeCname_at_length (pre : List Cell) (x : Cell) (suf : List Cell) (c : Byte) :
    writeCname (pre ++ x :: suf) (pre.length : Int) c
      = .ok (pre ++ some c :: suf, [Access.writeCname (pre.length : Int)]) := by
  have h : (0 : Int) ≤ pre.length ∧ (pre.length : Int) < ((pre ++ x :: suf).length : Int) := by
    simp
  simp only [writeCname, if_pos h, Int.toNat_ofNat, set_at_length]

theorem readName_at_length (spre : List Byte) (c : Byte) (ssuf : List Byte) :
    readName (spre ++ c :: ssuf) spre.length = .ok (c, [Access.readName spre.length]) := by
  have h : (spre ++ c :: ssuf).get? spre.length = some c := by
    induction spre with
    | nil => rfl
    | cons a t ih => exact ih
  unfold readName
  rw [h]

theorem strncpyPad_ok (k : Nat) : ∀ (pre suf : List Cell) (acc : List Access),
    k ≤ suf.length →
    strncpyPad k pre.length (pre ++ suf) acc
      = .ok (pre ++ List.replicate k (some 0) ++ suf.drop k, acc ++ padLog pre.length k) := by
  induction k with
  | zero => intro pre suf acc _; simp [strncpyPad, padLog]
  | succ k ih =>
    intro pre suf acc h
    cases suf with
    | nil => simp at h
    | cons x suf =>
      have hk : k ≤ suf.length := by simpa using h
      have step := ih (pre ++ [some 0]) suf (acc ++ [Access.writeCname (pre.length : Int)]) hk
      simp only [List.length_append, List.length_singleton, List.append_assoc,
        List.singleton_append] at step
      rw [strncpyPad]
      simp only [Nat.cast_ofNat, writeCname_at_length, step]
      simp [padLog, List.range'_succ, List.replicate_succ]

theorem strncpyCopy_ok (k : Nat) : ∀ (spre ssuf : List Byte) (pre suf : List Cell)
    (acc : List Access), spre.length = pre.length → k ≤ ssuf.length → k ≤ suf.length →
    strncpyCopy (spre ++ ssuf) k pre.length (pre ++ suf) acc
      = .ok (pre ++ copied (ssuf.take k) ++ suf.drop k,
             acc ++ copyLog pre.length (ssuf.take k)) := by
  induction k with
  | zero => intro spre ssuf pre suf acc _ _ _; simp [strncpyCopy, copied, copyLog]
  | succ k ih =>
    intro spre ssuf pre suf acc hpre hs hd
    cases ssuf with
    | nil => simp at hs
    | cons c ssuf =>
      cases suf with
      | nil => simp at hd
      | cons x suf =>
        have hs1 : k ≤ ssuf.length := by simpa using hs
        have hd1 : k ≤ suf.length := by simpa using hd
        rw [strncpyCopy, ← hpre, readName_at_length]
        by_cases hc : c = 0
        · subst hc
          have pad := strncpyPad_ok (k + 1) pre (x :: suf)
            (acc ++ [Access.readName spre.length]) hd
          simp only [if_true, hpre] at pad ⊢
          rw [pad]
          simp [copied, copyLog, List.length_take, Nat.min_eq_left hs1]
        · have step := ih (spre ++ [c]) ssuf (pre ++ [some c]) suf
            (acc ++ [Access.readName spre.length] ++ [Access.writeCname (pre.length : Int)])
            (by simp [hpre]) hs1 hd1
          simp only [List.length_append, List.length_singleton, List.append_assoc,
            List.singleton_append, hpre] at step
          simp only [if_neg hc, hpre, writeCname_at_length, List.append_assoc,
            List.singleton_append, List.cons_append, List.nil_append]
          rw [step]
          simp [copied, copyLog, hc]

theorem strncpy_ok (dest : List Cell) (src : List Byte) (n : Nat)
    (hs : n ≤ src.length) (hd : n ≤ dest.length) :
    strncpy dest src n = .ok (copied (src.take n) ++ dest.drop n, copyLog 0 (src.take n)) := by
  have h := strncpyCopy_ok n [] src [] dest [] rfl hs hd
  simpa [strncpy] using h

/-! ## Lemmas on the closed forms -/

theorem copied_length (l : List Byte) : (copied l).length = l.length := by
  induction l with
  | nil => rfl
  | cons c t ih => by_cases hc : c = 0 <;> simp [copied, hc, ih]

theorem copied_of_no_nul (l : List Byte) (h : ∀ b ∈ l, b ≠ 0) : copied l = l.map some := by
  induction l with
  | nil => rfl
  | cons c t ih =>
    have hc : c ≠ 0 := h c (by simp)
    have ht : ∀ b ∈ t, b ≠ 0 := fun b hb => h b (by simp [hb])
    simp [copied, hc, ih ht]

theorem cstring_copied (l : List Byte) (rest : List Cell) :
    cstring (copied l ++ some 0 :: rest) = some (l.takeWhile (fun b => b != 0)) := by
  induction l with
  | nil => simp [copied, cstring]
  | cons c t ih =>
    by_cases hc : c = 0
    · simp [copied, hc, cstring, List.replicate_succ]
    · simp [copied, hc, cstring, ih]

theorem mem_padLog (i k : Nat) (a : Access) (h : a ∈ padLog i k) :
    ∃ j : Nat, a = Access.writeCname (j : Int) ∧ i ≤ j ∧ j < i + k := by
  rw [padLog, List.mem_map] at h
  obtain ⟨j, hj, rfl⟩ := h
  rw [List.mem_range'_1] at hj
  exact ⟨j, rfl, hj.1, hj.2⟩

theorem mem_copyLog (l : List Byte) : ∀ (i : Nat) (a : Access), a ∈ copyLog i l →
    (∃ j : Nat, a = Access.readName j ∧ i ≤ j ∧ j < i + l.length) ∨
    (∃ j : Nat, a = Access.writeCname (j : Int) ∧ i ≤ j ∧ j < i + l.length) := by
  induction l with
  | nil => intro i a h; simp [copyLog] at h
  | cons c t ih =>
    intro i a h
    by_cases hc : c = 0
    · simp only [copyLog, hc, if_true, List.mem_cons] at h
      rcases h with rfl | h
      · exact Or.inl ⟨i, rfl, le_refl _, by simp⟩
      · obtain ⟨j, rfl, h1, h2⟩ := mem_padLog _ _ _ h
        exact Or.inr ⟨j, rfl, h1, by simpa using h2⟩
    · simp only [copyLog, hc, if_false, List.mem_cons] at h
      rcases h with rfl | rfl | h
      · exact Or.inl ⟨i, rfl, le_refl _, by simp⟩
      · exact Or.inr ⟨i, rfl, le_refl _, by simp⟩
      · rcases ih (i + 1) a h with ⟨j, rfl, h1, h2⟩ | ⟨j, rfl, h1, h2⟩
        · exact Or.inl ⟨j, rfl, by omega, by simp only [List.length_cons]; omega⟩
        · exact Or.inr ⟨j, rfl, by omega, by simp only [List.length_cons]; omega⟩

/-! ## The name marshaling of `t_startf` and `t_stopf`, for a declared length `L ≥ 0` -/

theorem MIN_of_nonneg (L : Int) (M : Nat) (h0 : 0 ≤ L) :
    MIN L M = ((min L.toNat M : Nat) : Int) := by
  unfold MIN
  split <;> omega

theorem toSizeT_natCast (n : Nat) : toSizeT (n : Int) = n := by
  simp [toSizeT]

theorem marshal_strncpy (M : Nat) (name : List Byte) (L : Int) (h0 : 0 ≤ L)
    (hlen : min L.toNat M ≤ name.length) :
    strncpy (List.replicate (M + 1) none) name (toSizeT (MIN L M))
      = .ok (copied (name.take (min L.toNat M))
               ++ none :: List.replicate (M - min L.toNat M) none,
             copyLog 0 (name.take (min L.toNat M))) := by
  have hm : M + 1 - min L.toNat M = (M - min L.toNat M) + 1 := by omega
  rw [MIN_of_nonneg L M h0, toSizeT_natCast,
    strncpy_ok _ _ _ hlen (by rw [List.length_replicate]; omega),
    List.drop_replicate, hm, List.replicate_succ]

theorem marshal_terminate (M : Nat) (name : List Byte) (L : Int) (h0 : 0 ≤ L)
    (hlen : min L.toNat M ≤ name.length) :
    writeCname (copied (name.take (min L.toNat M))
        ++ none :: List.replicate (M - min L.toNat M) none) (MIN L M) 0
      = .ok (cnameAfter M (name.take (min L.toNat M)),
             [Access.writeCname ((min L.toNat M : Nat) : Int)]) := by
  have hl : (copied (name.take (min L.toNat M))).length = min L.toNat M := by
    rw [copied_length, List.length_take]; omega
  have hw := writeCname_at_length (copied (name.take (min L.toNat M))) none
    (List.replicate (M - min L.toNat M) none) 0
  rw [hl] at hw
  rw [MIN_of_nonneg L M h0, hw]
  have ht : (name.take (min L.toNat M)).length = min L.toNat M := by
    rw [List.length_take]; omega
  simp [cnameAfter, ht]

theorem t_startf_ok (lib : Downstream) (M : Nat) (name : List Byte) (L : Int) (s : State)
    (h0 : 0 ≤ L) (hlen : min L.toNat M ≤ name.length) :
    t_startf lib M name L s
      = .ok (invoke lib (Call.t_start (cnameAfter M (name.take (min L.toNat M))))
          { s with log := s.log ++ copyLog 0 (name.take (min L.toNat M))
                      ++ [Access.writeCname ((min L.toNat M : Nat) : Int)] }) := by
  simp only [t_startf, marshal_strncpy M name L h0 hlen, marshal_terminate M name L h0 hlen]

theorem t_stopf_ok (lib : Downstream) (M : Nat) (name : List Byte) (L : Int) (s : State)
    (h0 : 0 ≤ L) (hlen : min L.toNat M ≤ name.length) :
    t_stopf lib M name L s
      = .ok (invoke lib (Call.t_stop (cnameAfter M (name.take (min L.toNat M))))
          { s with log := s.log ++ copyLog 0 (name.take (min L.toNat M))
                      ++ [Access.writeCname ((min L.toNat M : Nat) : Int)] }) := by
  simp only [t_stopf, marshal_strncpy M name L h0 hlen, marshal_terminate M name L h0 hlen]

theorem takeWhile_no_nul (l : List Byte) (h : ∀ b ∈ l, b ≠ 0) :
    l.takeWhile (fun b => b != 0) = l := by
  rw [List.takeWhile_eq_self_iff]
  intro b hb
  simpa using h b hb

theorem takeWhile_longest (l : List Byte) : ∀ q : List Byte, q <+: l → 0 ∉ q →
    q.length ≤ (l.takeWhile (fun b => b != 0)).length := by
  induction l with
  | nil => intro q hq _; simp [List.prefix_nil.mp hq]
  | cons c t ih =>
    intro q hq h0
    cases q with
    | nil => simp
    | cons d q =>
      obtain ⟨rfl, hq1⟩ := List.cons_prefix_cons.mp hq
      have hd : d ≠ 0 := fun h => h0 (by simp [h])
      have hq0 : 0 ∉ q := fun h => h0 (by simp [h])
      simpa [List.takeWhile_cons, hd] using ih q hq1 hq0

theorem takeWhile_full_iff (l : List Byte) :
    (l.takeWhile (fun b => b != 0)).length = l.length ↔ 0 ∉ l := by
  constructor
  · intro h h0
    have he : l.takeWhile (fun b => b != 0) = l :=
      (List.takeWhile_prefix _).eq_of_length h
    rw [List.takeWhile_eq_self_iff] at he
    simpa using he 0 h0
  · intro h0
    rw [takeWhile_no_nul l (fun b hb hz => h0 (hz ▸ hb))]

theorem cnameAfter_length (M : Nat) (l : List Byte) (h : l.length ≤ M) :
    (cnameAfter M l).length = M + 1 := by
  simp only [cnameAfter, List.length_append, copied_length, List.length_cons,
    List.length_replicate]
  omega

theorem cnameAfter_take (M : Nat) (l : List Byte) (h : ∀ b ∈ l, b ≠ 0) :
    (cnameAfter M l).take (l.length + 1) = (l ++ [0]).map some := by
  have hl : l.length = (List.map some l).length := by simp
  rw [cnameAfter, copied_of_no_nul l h, List.take_append_eq_append_take]
  simp

theorem cstring_cnameAfter (M : Nat) (l : List Byte) :
    cstring (cnameAfter M l) = some (l.takeWhile (fun b => b != 0)) :=
  cstring_copied l _

theorem length_take_min (name : List Byte) (L : Int) (M : Nat)
    (hlen : min L.toNat M ≤ name.length) :
    (name.take (min L.toNat M)).length = min L.toNat M := by
  rw [List.length_take]; omega

/-! ## The name marshaling, for every declared length -/

theorem writeCname_negative (cname : List Cell) (i : Int) (c : Byte) (h : i < 0) :
    writeCname cname i c = .error (Fault.write i) := by
  unfold writeCname
  rw [if_neg (by omega)]

theorem MIN_negative (L : Int) (M : Nat) (h : L < 0) : MIN L M < 0 := by
  unfold MIN
  split <;> omega

theorem t_startf_negative (lib : Downstream) (M : Nat) (name : List Byte) (L : Int)
    (s : State) (h : L < 0) : ∃ e : Fault, t_startf lib M name L s = .error e := by
  cases h1 : strncpy (List.replicate (M + 1) none) name (toSizeT (MIN L M)) with
  | error e => exact ⟨e, by simp only [t_startf, h1]⟩
  | ok ca =>
    obtain ⟨c, a⟩ := ca
    have hw := writeCname_negative c (MIN L M) 0 (MIN_negative L M h)
    exact ⟨Fault.write (MIN L M), by simp only [t_startf, h1, hw]⟩

theorem t_stopf_negative (lib : Downstream) (M : Nat) (name : List Byte) (L : Int)
    (s : State) (h : L < 0) : ∃ e : Fault, t_stopf lib M name L s = .error e := by
  cases h1 : strncpy (List.replicate (M + 1) none) name (toSizeT (MIN L M)) with
  | error e => exact ⟨e, by simp only [t_stopf, h1]⟩
  | ok ca =>
    obtain ⟨c, a⟩ := ca
    have hw := writeCname_negative c (MIN L M) 0 (MIN_negative L M h)
    exact ⟨Fault.write (MIN L M), by simp only [t_stopf, h1, hw]⟩

/-! ## The properties stated by the specification -/

/-- C1, amended. For a declared length `L ≥ 0`, a buffer that holds at least
`min(L, MAX_CHARS)` bytes, and no NUL among the first `min(L, MAX_CHARS)` bytes of the
buffer, `t_startf` and `t_stopf` end normally having made one call, of `t_start` and
of `t_stop`, on an array that starts with the first `min(L, MAX_CHARS)` bytes of the
buffer followed by NUL; read as a C string, the name handed over is those bytes. -/
theorem marshaled_name_eq_head_bytes (lib : Downstream) (MAX_CHARS : Nat) (name : List Byte)
    (L : Int) (s : State) (hL : 0 ≤ L) (hlen : min L.toNat MAX_CHARS ≤ name.length)
    (hnul : ∀ b ∈ name.take (min L.toNat MAX_CHARS), b ≠ 0) :
    ∃ cname : List Cell,
      (t_startf lib MAX_CHARS name L s).map (fun r => r.2.calls)
        = .ok (s.calls ++ [Call.t_start cname]) ∧
      (t_stopf lib MAX_CHARS name L s).map (fun r => r.2.calls)
        = .ok (s.calls ++ [Call.t_stop cname]) ∧
      cname.take (min L.toNat MAX_CHARS + 1)
        = (name.take (min L.toNat MAX_CHARS) ++ [0]).map some ∧
      cstring cname = some (name.take (min L.toNat MAX_CHARS)) := by
  refine ⟨cnameAfter MAX_CHARS (name.take (min L.toNat MAX_CHARS)), ?_, ?_, ?_, ?_⟩
  · rw [t_startf_ok lib MAX_CHARS name L s hL hlen]; rfl
  · rw [t_stopf_ok lib MAX_CHARS name L s hL hlen]; rfl
  · have h := cnameAfter_take MAX_CHARS _ hnul
    rwa [length_take_min name L MAX_CHARS hlen] at h
  · rw [cstring_cnameAfter, takeWhile_no_nul _ hnul]

/-- C1 at the scenario of the specification: the buffer
"region_A_very_long_label_exceeding_bound", `L = 40`, `MAX_CHARS = 16`. -/
theorem marshaled_name_eq_head_bytes_witness :
    (0 : Int) ≤ 40 ∧
    min (40 : Int).toNat 16 ≤ (bytes "region_A_very_long_label_exceeding_bound").length ∧
    (∀ b ∈ (bytes "region_A_very_long_label_exceeding_bound").take (min (40 : Int).toNat 16),
      b ≠ 0) ∧
    ∃ cname : List Cell,
      (t_startf (fun _ _ => 0) 16 (bytes "region_A_very_long_label_exceeding_bound") 40
          ⟨[], []⟩).map (fun r => r.2.calls) = .ok ([] ++ [Call.t_start cname]) ∧
      (t_stopf (fun _ _ => 0) 16 (bytes "region_A_very_long_label_exceeding_bound") 40
          ⟨[], []⟩).map (fun r => r.2.calls) = .ok ([] ++ [Call.t_stop cname]) ∧
      cname.take (16 + 1) = (bytes "region_A_very_lo" ++ [0]).map some ∧
      cstring cname = some (bytes "region_A_very_lo") :=
  ⟨by decide, by decide, by decide,
    marshaled_name_eq_head_bytes (fun _ _ => 0) 16
      (bytes "region_A_very_long_label_exceeding_bound") 40 ⟨[], []⟩
      (by decide) (by decide) (by decide)⟩

/-- C1 fails as stated. (1) With a NUL inside the declared length (buffer `a`, NUL, `b`;
`L = 3`; `MAX_CHARS = 3`) `strncpy` stops at the NUL and fills with NUL: the array
handed to `t_start` starts `a`, NUL, NUL, NUL, not `a`, NUL, `b`, NUL, and the name is
`a`. (2) With a negative declared length (`L = -1`) the count passed to `strncpy` wraps
around, the fill runs off the end of `cname`, and nothing is handed to `t_start`. -/
theorem marshaled_name_counterexample :
    ((t_startf (fun _ _ => 0) 3 [97, 0, 98] 3 ⟨[], []⟩).map (fun r => r.2.calls)
        = .ok [Call.t_start [some 97, some 0, some 0, some 0]]
      ∧ [some 97, some 0, some 0, some 0] ≠ (([97, 0, 98] : List Byte) ++ [0]).map some
      ∧ cstring [some 97, some 0, some 0, some 0] = some [97]
      ∧ ([97] : List Byte) ≠ [97, 0, 98])
    ∧ t_startf (fun _ _ => 0) 3 [97, 0, 98] (-1) ⟨[], []⟩ = .error (Fault.write 4) := by
  refine ⟨⟨rfl, by decide, rfl, by decide⟩, rfl⟩

/-- C2, amended. Whatever the downstream library does, `t_initializef`, `t_prf`,
`t_setoptionf` and `t_stampf` call their downstream routine exactly once and return the
status of that call, for every input; `t_startf` and `t_stopf` do so for every declared
length `L ≥ 0` and every buffer that holds at least `min(L, MAX_CHARS)` bytes, a name
longer than `MAX_CHARS` included: its truncation gives no status of its own. -/
theorem status_passed_through (lib : Downstream) (heap : Heap) (MAX_CHARS : Nat)
    (procid option val wall usr sys : Addr) (name : List Byte) (L : Int) (s : State)
    (hL : 0 ≤ L) (hlen : min L.toNat MAX_CHARS ≤ name.length) :
    CallsOnce lib s Call.t_initialize (t_initializef lib s) ∧
    CallsOnce lib s (Call.t_pr (heap procid)) (t_prf lib heap procid s) ∧
    CallsOnce lib s (Call.t_setoption (toOptionName (heap option)) (toBoolean (heap val)))
      (t_setoptionf lib heap option val s) ∧
    CallsOnce lib s (Call.t_stamp wall usr sys) (t_stampf lib wall usr sys s) ∧
    (∃ cname r, t_startf lib MAX_CHARS name L s = .ok r ∧
      CallsOnce lib s (Call.t_start cname) r) ∧
    (∃ cname r, t_stopf lib MAX_CHARS name L s = .ok r ∧
      CallsOnce lib s (Call.t_stop cname) r) := by
  refine ⟨⟨rfl, rfl⟩, ⟨rfl, rfl⟩, ⟨rfl, rfl⟩, ⟨rfl, rfl⟩, ?_, ?_⟩
  · exact ⟨_, _, t_startf_ok lib MAX_CHARS name L s hL hlen, rfl, rfl⟩
  · exact ⟨_, _, t_stopf_ok lib MAX_CHARS name L s hL hlen, rfl, rfl⟩

/-- C2 at a concrete input: a downstream library that answers the sentinel `-7` to
every call, and a 20-byte name (longer than `MAX_CHARS = 16`) declared with `L = 20`. -/
theorem status_passed_through_witness :
    (0 : Int) ≤ 20 ∧ min (20 : Int).toNat 16 ≤ (bytes "twenty_bytes_of_name").length ∧
    (CallsOnce (fun _ _ => -7) ⟨[], []⟩ Call.t_initialize
        (t_initializef (fun _ _ => -7) ⟨[], []⟩) ∧
      CallsOnce (fun _ _ => -7) ⟨[], []⟩ (Call.t_pr ((fun _ => 5 : Heap) 0))
        (t_prf (fun _ _ => -7) (fun _ => 5) 0 ⟨[], []⟩) ∧
      CallsOnce (fun _ _ => -7) ⟨[], []⟩
        (Call.t_setoption (toOptionName ((fun _ => 5 : Heap) 1))
          (toBoolean ((fun _ => 5 : Heap) 2)))
        (t_setoptionf (fun _ _ => -7) (fun _ => 5) 1 2 ⟨[], []⟩) ∧
      CallsOnce (fun _ _ => -7) ⟨[], []⟩ (Call.t_stamp 3 4 5)
        (t_stampf (fun _ _ => -7) 3 4 5 ⟨[], []⟩) ∧
      (∃ cname r, t_startf (fun _ _ => -7) 16 (bytes "twenty_bytes_of_name") 20 ⟨[], []⟩
          = .ok r ∧ CallsOnce (fun _ _ => -7) ⟨[], []⟩ (Call.t_start cname) r) ∧
      (∃ cname r, t_stopf (fun _ _ => -7) 16 (bytes "twenty_bytes_of_name") 20 ⟨[], []⟩
          = .ok r ∧ CallsOnce (fun _ _ => -7) ⟨[], []⟩ (Call.t_stop cname) r)) :=
  ⟨by decide, by decide,
    status_passed_through (fun _ _ => -7) (fun _ => 5) 16 0 1 2 3 4 5
      (bytes "twenty_bytes_of_name") 20 ⟨[], []⟩ (by decide) (by decide)⟩

/-- C2 fails as stated. With the declared length `L = -1` (buffer `a`, `b`, NUL;
`MAX_CHARS = 16`; downstream answering `-7`) the count passed to `strncpy` wraps around:
after the NUL of the buffer the fill runs through `cname[1]` ... `cname[16]` and faults at
`cname[17]`. `t_stopf` calls `t_stop` not once but never, and returns no status. -/
theorem status_passed_through_counterexample :
    t_stopf (fun _ _ => -7) 16 [97, 98, 0] (-1) ⟨[], []⟩ = .error (Fault.write 17) := by
  rfl

/-- C3, amended. For a declared length `L ≥ 0` and a buffer that holds at least
`min(L, MAX_CHARS)` bytes, `t_startf` and `t_stopf` end normally, read no byte of the
buffer at an index `≥ L`, write `cname` only at indices in `[0, MAX_CHARS]` (the
terminator, at index `numchars`, among them), and hand downstream an array of
`MAX_CHARS + 1` cells that holds a NUL-terminated string of length at most
`MAX_CHARS`. -/
theorem marshaling_memory_safe (lib : Downstream) (MAX_CHARS : Nat) (name : List Byte)
    (L : Int) (s : State) (hL : 0 ≤ L) (hlen : min L.toNat MAX_CHARS ≤ name.length) :
    ∃ (cname : List Cell) (acc : List Access) (str : List Byte),
      (t_startf lib MAX_CHARS name L s).map Prod.snd
        = .ok ⟨s.calls ++ [Call.t_start cname], s.log ++ acc⟩ ∧
      (t_stopf lib MAX_CHARS name L s).map Prod.snd
        = .ok ⟨s.calls ++ [Call.t_stop cname], s.log ++ acc⟩ ∧
      (∀ i : Nat, Access.readName i ∈ acc → (i : Int) < L) ∧
      (∀ j : Int, Access.writeCname j ∈ acc → 0 ≤ j ∧ j ≤ MAX_CHARS) ∧
      Access.writeCname (MIN L MAX_CHARS) ∈ acc ∧
      cname.length = MAX_CHARS + 1 ∧
      cstring cname = some str ∧ str.length ≤ MAX_CHARS := by
  have hl := length_take_min name L MAX_CHARS hlen
  refine ⟨cnameAfter MAX_CHARS (name.take (min L.toNat MAX_CHARS)),
    copyLog 0 (name.take (min L.toNat MAX_CHARS))
      ++ [Access.writeCname ((min L.toNat MAX_CHARS : Nat) : Int)],
    (name.take (min L.toNat MAX_CHARS)).takeWhile (fun b => b != 0), ?_, ?_, ?_, ?_, ?_, ?_, ?_, ?_⟩
  · rw [t_startf_ok lib MAX_CHARS name L s hL hlen]
    simp [Except.map, invoke, List.append_assoc]
  · rw [t_stopf_ok lib MAX_CHARS name L s hL hlen]
    simp [Except.map, invoke, List.append_assoc]
  · intro i hi
    rcases List.mem_append.mp hi with h | h
    · rcases mem_copyLog _ 0 _ h with ⟨j, hj, -, h2⟩ | ⟨j, hj, -, -⟩
      · cases hj
        rw [hl] at h2
        omega
      · cases hj
    · simp at h
  · intro j hj
    rcases List.mem_append.mp hj with h | h
    · rcases mem_copyLog _ 0 _ h with ⟨k, hk, -, -⟩ | ⟨k, hk, -, h2⟩
      · cases hk
      · cases hk
        rw [hl] at h2
        omega
    · simp only [List.mem_singleton, Access.writeCname.injEq] at h
      omega
  · rw [MIN_of_nonneg L MAX_CHARS hL]
    simp
  · exact cnameAfter_length _ _ (by omega)
  · exact cstring_cnameAfter _ _
  · have h := (List.takeWhile_prefix (fun b : Byte => b != 0)
      (l := name.take (min L.toNat MAX_CHARS))).length_le
    omega

/-- C3 at a concrete input: a 5-byte buffer declared with `L = 5`, and `MAX_CHARS = 3`. -/
theorem marshaling_memory_safe_witness :
    (0 : Int) ≤ 5 ∧ min (5 : Int).toNat 3 ≤ (bytes "timer").length ∧
    ∃ (cname : List Cell) (acc : List Access) (str : List Byte),
      (t_startf (fun _ _ => 0) 3 (bytes "timer") 5 ⟨[], []⟩).map Prod.snd
        = .ok ⟨[] ++ [Call.t_start cname], [] ++ acc⟩ ∧
      (t_stopf (fun _ _ => 0) 3 (bytes "timer") 5 ⟨[], []⟩).map Prod.snd
        = .ok ⟨[] ++ [Call.t_stop cname], [] ++ acc⟩ ∧
      (∀ i : Nat, Access.readName i ∈ acc → (i : Int) < 5) ∧
      (∀ j : Int, Access.writeCname j ∈ acc → 0 ≤ j ∧ j ≤ (3 : Nat)) ∧
      Access.writeCname (MIN 5 (3 : Nat)) ∈ acc ∧
      cname.length = 3 + 1 ∧
      cstring cname = some str ∧ str.length ≤ 3 :=
  ⟨by decide, by decide,
    marshaling_memory_safe (fun _ _ => 0) 3 (bytes "timer") 5 ⟨[], []⟩ (by decide) (by decide)⟩

/-- C3 fails as stated. With the declared length `L = -1` (buffer holding one NUL byte,
`MAX_CHARS = 4`) `numchars` is `-1` and the count passed to `strncpy` wraps around:
`name[0]` is read although `0 ≥ L`, the fill writes `cname[0]` ... `cname[4]` and then
addresses `cname[5]`, outside `[0, MAX_CHARS]`; nothing is handed downstream. -/
theorem marshaling_memory_safe_counterexample :
    MIN (-1) (4 : Nat) = -1 ∧
    readName [0] 0 = .ok (0, [Access.readName 0]) ∧
    t_startf (fun _ _ => 0) 4 [0] (-1) ⟨[], []⟩ = .error (Fault.write 5) ∧
    ¬ ((0 : Int) ≤ 5 ∧ (5 : Int) ≤ (4 : Nat)) := by
  refine ⟨rfl, rfl, rfl, by decide⟩

/-- C4, amended. For every buffer, the declared length `L = 0` makes `t_startf` and
`t_stopf` hand over the empty name; and every declared length `L > MAX_CHARS` makes them
hand over a name of exactly `MAX_CHARS` bytes provided the buffer holds at least
`MAX_CHARS` bytes and none of its first `MAX_CHARS` bytes is NUL. -/
theorem marshaling_boundaries (lib : Downstream) (MAX_CHARS : Nat) (name : List Byte)
    (s : State) :
    (∃ cname : List Cell,
      (t_startf lib MAX_CHARS name 0 s).map (fun r => r.2.calls)
        = .ok (s.calls ++ [Call.t_start cname]) ∧
      (t_stopf lib MAX_CHARS name 0 s).map (fun r => r.2.calls)
        = .ok (s.calls ++ [Call.t_stop cname]) ∧
      cstring cname = some []) ∧
    (∀ L : Int, (MAX_CHARS : Int) < L → MAX_CHARS ≤ name.length →
      (∀ b ∈ name.take MAX_CHARS, b ≠ 0) →
      ∃ (cname : List Cell) (str : List Byte),
        (t_startf lib MAX_CHARS name L s).map (fun r => r.2.calls)
          = .ok (s.calls ++ [Call.t_start cname]) ∧
        (t_stopf lib MAX_CHARS name L s).map (fun r => r.2.calls)
          = .ok (s.calls ++ [Call.t_stop cname]) ∧
        cstring cname = some str ∧ str.length = MAX_CHARS) := by
  constructor
  · have h0 : min (0 : Int).toNat MAX_CHARS ≤ name.length := by simp
    refine ⟨cnameAfter MAX_CHARS (name.take (min (0 : Int).toNat MAX_CHARS)), ?_, ?_, ?_⟩
    · rw [t_startf_ok lib MAX_CHARS name 0 s (le_refl _) h0]; rfl
    · rw [t_stopf_ok lib MAX_CHARS name 0 s (le_refl _) h0]; rfl
    · rw [cstring_cnameAfter]; simp
  · intro L hL hlen hnul
    have hm : min L.toNat MAX_CHARS = MAX_CHARS := by omega
    have hlen1 : min L.toNat MAX_CHARS ≤ name.length := by omega
    refine ⟨cnameAfter MAX_CHARS (name.take (min L.toNat MAX_CHARS)),
      name.take MAX_CHARS, ?_, ?_, ?_, ?_⟩
    · rw [t_startf_ok lib MAX_CHARS name L s (by omega) hlen1]; rfl
    · rw [t_stopf_ok lib MAX_CHARS name L s (by omega) hlen1]; rfl
    · rw [cstring_cnameAfter, hm, takeWhile_no_nul _ hnul]
    · rw [List.length_take]; omega

/-- C4 at concrete inputs: `MAX_CHARS = 4`, the 9-byte buffer "long_name", and the
declared lengths `0` and `9`. -/
theorem marshaling_boundaries_witness :
    ((4 : Nat) : Int) < 9 ∧ 4 ≤ (bytes "long_name").length ∧
    (∀ b ∈ (bytes "long_name").take 4, b ≠ 0) ∧
    (∃ cname : List Cell,
      (t_startf (fun _ _ => 0) 4 (bytes "long_name") 0 ⟨[], []⟩).map (fun r => r.2.calls)
        = .ok ([] ++ [Call.t_start cname]) ∧
      (t_stopf (fun _ _ => 0) 4 (bytes "long_name") 0 ⟨[], []⟩).map (fun r => r.2.calls)
        = .ok ([] ++ [Call.t_stop cname]) ∧
      cstring cname = some []) ∧
    (∃ (cname : List Cell) (str : List Byte),
      (t_startf (fun _ _ => 0) 4 (bytes "long_name") 9 ⟨[], []⟩).map (fun r => r.2.calls)
        = .ok ([] ++ [Call.t_start cname]) ∧
      (t_stopf (fun _ _ => 0) 4 (bytes "long_name") 9 ⟨[], []⟩).map (fun r => r.2.calls)
        = .ok ([] ++ [Call.t_stop cname]) ∧
      cstring cname = some str ∧ str.length = 4) :=
  ⟨by decide, by decide, by decide,
    (marshaling_boundaries (fun _ _ => 0) 4 (bytes "long_name") ⟨[], []⟩).1,
    (marshaling_boundaries (fun _ _ => 0) 4 (bytes "long_name") ⟨[], []⟩).2 9
      (by decide) (by decide) (by decide)⟩

/-- C4 fails as stated. With `MAX_CHARS = 2`, the declared length `L = 3 > MAX_CHARS` and
a buffer that starts with NUL (NUL, `b`, `c`), `strncpy` stops at once and fills with
NUL: the name handed to `t_start` is empty, of 0 bytes and not of `MAX_CHARS` bytes. -/
theorem marshaling_boundaries_counterexample :
    ((2 : Nat) : Int) < 3 ∧
    (t_startf (fun _ _ => 0) 2 [0, 98, 99] 3 ⟨[], []⟩).map (fun r => r.2.calls)
      = .ok [Call.t_start [some 0, some 0, some 0]] ∧
    cstring [some 0, some 0, some 0] = some [] ∧
    ([] : List Byte).length ≠ 2 := by
  refine ⟨by decide, rfl, rfl, by decide⟩

/-- C5. For every pair of integers stored at the addresses passed, whether or not they
are values of the enumerations, `t_setoptionf` makes exactly the call of `t_setoption`
whose option is the stored option code and whose flag is the stored flag value, both
converted and otherwise untouched, and returns its status; when the stored values are
`3` and `1`, `t_setoption` receives the member of value `3` and `true`. -/
theorem setoption_unvalidated (lib : Downstream) (heap : Heap) (option val : Addr)
    (s : State) :
    CallsOnce lib s (Call.t_setoption (toOptionName (heap option)) (toBoolean (heap val)))
      (t_setoptionf lib heap option val s) ∧
    (toOptionName (heap option)).code = heap option ∧
    (toBoolean (heap val)).flag = heap val ∧
    (heap option = 3 → heap val = 1 →
      (t_setoptionf lib heap option val s).2.calls
        = s.calls ++ [Call.t_setoption ⟨3⟩ Boolean.true]) := by
  refine ⟨⟨rfl, rfl⟩, rfl, rfl, ?_⟩
  intro ho hv
  simp [t_setoptionf, deref, invoke, toOptionName, toBoolean, ho, hv, Boolean.true]

/-- C5 at the scenario of the specification: option code `3` and flag `1`, stored at the
addresses `10` and `11`. -/
theorem setoption_unvalidated_witness :
    (fun p => if p = 10 then 3 else 1 : Heap) 10 = 3 ∧
    (fun p => if p = 10 then 3 else 1 : Heap) 11 = 1 ∧
    (t_setoptionf (fun _ _ => 0) (fun p => if p = 10 then 3 else 1) 10 11 ⟨[], []⟩).2.calls
      = [] ++ [Call.t_setoption ⟨3⟩ Boolean.true] :=
  ⟨by decide, by decide,
    (setoption_unvalidated (fun _ _ => 0) (fun p => if p = 10 then 3 else 1) 10 11
      ⟨[], []⟩).2.2.2 (by decide) (by decide)⟩

/-- C6, amended. For every declared length `L ≥ 0` and every buffer that holds at least
`min(L, MAX_CHARS)` bytes there is one array, holding a NUL-terminated name, fixed by
`MAX_CHARS`, the buffer and `L` alone, such that whatever the downstream library answers
and whatever was done before, `t_startf` ends normally having called `t_start` on that
array and `t_stopf` ends normally having called `t_stop` on that array; in particular
`t_startf` followed by `t_stopf` on the same (buffer, length) adds exactly the two calls
`t_start` and `t_stop`, on the same name. -/
theorem start_stop_same_name (MAX_CHARS : Nat) (name : List Byte) (L : Int)
    (hL : 0 ≤ L) (hlen : min L.toNat MAX_CHARS ≤ name.length) :
    ∃ (cname : List Cell) (str : List Byte),
      cstring cname = some str ∧
      (∀ (lib1 lib2 : Downstream) (s1 s2 : State),
        (t_startf lib1 MAX_CHARS name L s1).map (fun r => r.2.calls)
          = .ok (s1.calls ++ [Call.t_start cname]) ∧
        (t_stopf lib2 MAX_CHARS name L s2).map (fun r => r.2.calls)
          = .ok (s2.calls ++ [Call.t_stop cname])) ∧
      (∀ (lib : Downstream) (s : State),
        ∃ r1 : Int × State, t_startf lib MAX_CHARS name L s = .ok r1 ∧
          (t_stopf lib MAX_CHARS name L r1.2).map (fun r => r.2.calls)
            = .ok (s.calls ++ [Call.t_start cname, Call.t_stop cname])) := by
  refine ⟨cnameAfter MAX_CHARS (name.take (min L.toNat MAX_CHARS)),
    (name.take (min L.toNat MAX_CHARS)).takeWhile (fun b => b != 0),
    cstring_cnameAfter _ _, ?_, ?_⟩
  · intro lib1 lib2 s1 s2
    constructor
    · rw [t_startf_ok lib1 MAX_CHARS name L s1 hL hlen]; rfl
    · rw [t_stopf_ok lib2 MAX_CHARS name L s2 hL hlen]; rfl
  · intro lib s
    refine ⟨_, t_startf_ok lib MAX_CHARS name L s hL hlen, ?_⟩
    rw [t_stopf_ok lib MAX_CHARS name L _ hL hlen]
    simp [Except.map, invoke]

/-- C6 at a concrete input: the 6-byte buffer "solver" declared with `L = 6`, and
`MAX_CHARS = 4`; both routines receive the name "solv". -/
theorem start_stop_same_name_witness :
    (0 : Int) ≤ 6 ∧ min (6 : Int).toNat 4 ≤ (bytes "solver").length ∧
    ∃ (cname : List Cell) (str : List Byte),
      cstring cname = some str ∧
      (∀ (lib1 lib2 : Downstream) (s1 s2 : State),
        (t_startf lib1 4 (bytes "solver") 6 s1).map (fun r => r.2.calls)
          = .ok (s1.calls ++ [Call.t_start cname]) ∧
        (t_stopf lib2 4 (bytes "solver") 6 s2).map (fun r => r.2.calls)
          = .ok (s2.calls ++ [Call.t_stop cname])) ∧
      (∀ (lib : Downstream) (s : State),
        ∃ r1 : Int × State, t_startf lib 4 (bytes "solver") 6 s = .ok r1 ∧
          (t_stopf lib 4 (bytes "solver") 6 r1.2).map (fun r => r.2.calls)
            = .ok (s.calls ++ [Call.t_start cname, Call.t_stop cname])) :=
  ⟨by decide, by decide,
    start_stop_same_name 4 (bytes "solver") 6 (by decide) (by decide)⟩

/-- C6 fails as stated. With the declared length `L = -1` (buffer `t`, NUL;
`MAX_CHARS = 8`) the count passed to `strncpy` wraps around in `t_startf` and in
`t_stopf` alike: after the NUL of the buffer the fill runs through `cname[1]` ...
`cname[8]` and faults at `cname[9]`. Neither `t_start` nor `t_stop` is called, so neither
receives a name. -/
theorem start_stop_same_name_counterexample :
    t_startf (fun _ _ => 0) 8 [116, 0] (-1) ⟨[], []⟩ = .error (Fault.write 9) ∧
    t_stopf (fun _ _ => 0) 8 [116, 0] (-1) ⟨[], []⟩ = .error (Fault.write 9) ∧
    (¬ ∃ cname : List Cell,
      (t_startf (fun _ _ => 0) 8 [116, 0] (-1) ⟨[], []⟩).map (fun r => r.2.calls)
        = .ok [Call.t_start cname]) ∧
    (¬ ∃ cname : List Cell,
      (t_stopf (fun _ _ => 0) 8 [116, 0] (-1) ⟨[], []⟩).map (fun r => r.2.calls)
        = .ok [Call.t_stop cname]) := by
  have h1 : t_startf (fun _ _ => 0) 8 [116, 0] (-1) ⟨[], []⟩ = .error (Fault.write 9) := rfl
  have h2 : t_stopf (fun _ _ => 0) 8 [116, 0] (-1) ⟨[], []⟩ = .error (Fault.write 9) := rfl
  refine ⟨h1, h2, ?_, ?_⟩
  · rintro ⟨cname, h⟩
    rw [h1] at h
    cases h
  · rintro ⟨cname, h⟩
    rw [h2] at h
    cases h

/-- C7. In every build configuration of the three flags exactly one spelling scheme
fits the exported names, and it fits all seven routines: the uppercase spelling when
`FORTRANCAPS` is defined, the single trailing underscore when `FORTRANUNDERSCORE` is the
first defined flag of the chain, the double trailing underscore when
`FORTRANDOUBLEUNDERSCORE` is, and the undecorated identifier when none of the three is
defined. -/
theorem one_scheme_for_all_routines (b : Build) :
    (∃! sch : Scheme, ∀ r : Routine, exported b r = decorate sch r.ident) ∧
    (∀ r : Routine, exported b r = decorate (selected b) r.ident) ∧
    (b.FORTRANCAPS = true → ∀ r : Routine, exported b r = upper r.ident) ∧
    (b.FORTRANCAPS = false → b.FORTRANUNDERSCORE = true →
      ∀ r : Routine, exported b r = r.ident ++ "_") ∧
    (b.FORTRANCAPS = false → b.FORTRANUNDERSCORE = false →
      b.FORTRANDOUBLEUNDERSCORE = true → ∀ r : Routine, exported b r = r.ident ++ "__") ∧
    (b.FORTRANCAPS = false → b.FORTRANUNDERSCORE = false →
      b.FORTRANDOUBLEUNDERSCORE = false → ∀ r : Routine, exported b r = r.ident) := by
  have hsel : ∀ r : Routine, exported b r = decorate (selected b) r.ident := by
    obtain ⟨x, y, z⟩ := b
    intro r
    cases x <;> cases y <;> cases z <;> cases r <;> rfl
  refine ⟨⟨selected b, hsel, ?_⟩, hsel, ?_, ?_, ?_, ?_⟩
  · intro sch h
    have hp := (h Routine.t_prf).symm.trans (hsel Routine.t_prf)
    obtain ⟨x, y, z⟩ := b
    revert hp
    cases sch <;> cases x <;> cases y <;> cases z <;> decide
  · intro h r
    rw [hsel r, selected, if_pos h]; rfl
  · intro h1 h2 r
    rw [hsel r, selected, if_neg (by simp [h1]), if_pos h2]; rfl
  · intro h1 h2 h3 r
    rw [hsel r, selected, if_neg (by simp [h1]), if_neg (by simp [h2]), if_pos h3]; rfl
  · intro h1 h2 h3 r
    rw [hsel r, selected, if_neg (by simp [h1]), if_neg (by simp [h2]),
      if_neg (by simp [h3])]; rfl

/-- C7 at a concrete build: only `FORTRANUNDERSCORE` defined; `t_startf` is exported as
`t_startf_`. -/
theorem one_scheme_for_all_routines_witness :
    exported ⟨false, true, false⟩ Routine.t_startf = "t_startf_" :=
  (one_scheme_for_all_routines ⟨false, true, false⟩).2.2.2.1 rfl rfl Routine.t_startf

/-- C8. For every integer stored at the address given to `t_prf`, the one call `t_prf`
makes is `t_pr` of that integer, the address given being the only location the wrapper
reads; and for every three addresses given to `t_stampf`, the one call it makes is
`t_stamp` of those three addresses in the same order, the wrapper itself reading and
writing no location at all. -/
theorem scalars_marshaled (lib : Downstream) (heap : Heap) (procid wall usr sys : Addr)
    (s : State) :
    CallsOnce lib s (Call.t_pr (heap procid)) (t_prf lib heap procid s) ∧
    (t_prf lib heap procid s).2.log = s.log ++ [Access.load procid] ∧
    CallsOnce lib s (Call.t_stamp wall usr sys) (t_stampf lib wall usr sys s) ∧
    (t_stampf lib wall usr sys s).2.log = s.log :=
  ⟨⟨rfl, rfl⟩, rfl, ⟨rfl, rfl⟩, rfl⟩

/-- C9. For every declared length `L ≥ 0` and every buffer that holds at least
`min(L, MAX_CHARS)` bytes, the C string that `t_startf` and `t_stopf` hand downstream
is the longest prefix of the first `min(L, MAX_CHARS)` bytes of the buffer in which no
NUL occurs; its length is `min(L, MAX_CHARS)` if and only if none of those bytes is
NUL. -/
theorem name_stops_at_first_nul (lib : Downstream) (MAX_CHARS : Nat) (name : List Byte)
    (L : Int) (s : State) (hL : 0 ≤ L) (hlen : min L.toNat MAX_CHARS ≤ name.length) :
    ∃ (cname : List Cell) (str : List Byte),
      (t_startf lib MAX_CHARS name L s).map (fun r => r.2.calls)
        = .ok (s.calls ++ [Call.t_start cname]) ∧
      (t_stopf lib MAX_CHARS name L s).map (fun r => r.2.calls)
        = .ok (s.calls ++ [Call.t_stop cname]) ∧
      cstring cname = some str ∧
      str <+: name.take (min L.toNat MAX_CHARS) ∧ 0 ∉ str ∧
      (∀ q : List Byte, q <+: name.take (min L.toNat MAX_CHARS) → 0 ∉ q →
        q.length ≤ str.length) ∧
      (str.length = min L.toNat MAX_CHARS ↔ 0 ∉ name.take (min L.toNat MAX_CHARS)) := by
  refine ⟨cnameAfter MAX_CHARS (name.take (min L.toNat MAX_CHARS)),
    (name.take (min L.toNat MAX_CHARS)).takeWhile (fun b => b != 0), ?_, ?_, ?_, ?_, ?_, ?_, ?_⟩
  · rw [t_startf_ok lib MAX_CHARS name L s hL hlen]; rfl
  · rw [t_stopf_ok lib MAX_CHARS name L s hL hlen]; rfl
  · exact cstring_cnameAfter _ _
  · exact List.takeWhile_prefix _
  · intro h0
    simpa using List.mem_takeWhile_imp h0
  · exact takeWhile_longest _
  · have h := takeWhile_full_iff (name.take (min L.toNat MAX_CHARS))
    rwa [length_take_min name L MAX_CHARS hlen] at h

/-- C9 at a concrete input: the buffer `a`, `b`, NUL, `d`, `e` declared with `L = 5`, and
`MAX_CHARS = 4`; the string handed over is `a`, `b`. -/
theorem name_stops_at_first_nul_witness :
    (0 : Int) ≤ 5 ∧ min (5 : Int).toNat 4 ≤ ([97, 98, 0, 100, 101] : List Byte).length ∧
    ∃ (cname : List Cell) (str : List Byte),
      (t_startf (fun _ _ => 0) 4 [97, 98, 0, 100, 101] 5 ⟨[], []⟩).map (fun r => r.2.calls)
        = .ok ([] ++ [Call.t_start cname]) ∧
      (t_stopf (fun _ _ => 0) 4 [97, 98, 0, 100, 101] 5 ⟨[], []⟩).map (fun r => r.2.calls)
        = .ok ([] ++ [Call.t_stop cname]) ∧
      cstring cname = some str ∧
      str <+: [97, 98, 0, 100] ∧ 0 ∉ str ∧
      (∀ q : List Byte, q <+: [97, 98, 0, 100] → 0 ∉ q → q.length ≤ str.length) ∧
      (str.length = 4 ↔ 0 ∉ ([97, 98, 0, 100] : List Byte)) :=
  ⟨by decide, by decide,
    name_stops_at_first_nul (fun _ _ => 0) 4 [97, 98, 0, 100, 101] 5 ⟨[], []⟩
      (by decide) (by decide)⟩

end Timing
